import Mathlib

/-!
Verification model of `jedi/api/project.py`.

Paths are modelled as `PyPath`: an absolute/relative flag plus a list of
segments (each segment a `List Char`), mirroring `pathlib.PurePosixPath`.
Python strings that hold rendered paths are modelled as `List Char`, so that
string operations such as `str.startswith` keep their character-level meaning.
Filesystem state is passed explicitly as structures of decidable predicates.
-/

/-- A segment of a posix path (a file or directory name). -/
abbrev Seg := List Char

/-- Model of a `pathlib.Path` value: absolute flag plus segments
(`Path('/a/b')` is `⟨true, [a-chars, b-chars]⟩`). -/
structure PyPath where
  isAbs : Bool
  segs : List Seg
deriving DecidableEq

/-- Renders `/seg` for each segment: the tail of `str(path)` rendering. -/
def strSegs : List Seg → List Char
  | [] => []
  | s :: rest => '/' :: (s ++ strSegs rest)

/-- Model of `str(path)` for posix paths. -/
def strOfPath (p : PyPath) : List Char :=
  if p.isAbs then
    match p.segs with
    | [] => ['/']
    | _ :: _ => strSegs p.segs
  else
    match p.segs with
    | [] => ['.']
    | s :: rest => s ++ strSegs rest

/-- Splits a character list on `/`, accumulating the current (reversed)
segment; used to model `pathlib`'s parsing of a path string. -/
def splitSeg : List Char → List Char → List Seg
  | [], cur => [cur.reverse]
  | c :: rest, cur => if c = '/' then cur.reverse :: splitSeg rest [] else splitSeg rest (c :: cur)

/-- Model of `Path(string)` for posix path strings. -/
def parsePath (s : List Char) : PyPath :=
  match s with
  | [] => { isAbs := false, segs := [] }
  | c :: rest =>
    if c = '/' then { isAbs := true, segs := if rest = [] then [] else splitSeg rest [] }
    else if c = '.' ∧ rest = [] then { isAbs := false, segs := [] }
    else { isAbs := false, segs := splitSeg (c :: rest) [] }

/-- Model of `Path.absolute()`: a relative path is interpreted against the
process working directory; an absolute path is returned unchanged (no
symlink resolution, no `..` normalization, exactly like `absolute()`). -/
def PyPath.absolute (p : PyPath) (cwd : List Seg) : PyPath :=
  if p.isAbs then p else { isAbs := true, segs := cwd ++ p.segs }

/-- Fuel-driven recursion computing the proper prefixes of a list, longest
first; the fuel bounds the recursion depth structurally. -/
def ancestorsAux {α : Type} : Nat → List α → List (List α)
  | 0, _ => []
  | _ + 1, [] => []
  | n + 1, x :: xs => (x :: xs).dropLast :: ancestorsAux n ((x :: xs).dropLast)

/-- The proper prefixes of a list, longest first; models the segment lists of
`Path.parents`. -/
def ancestorsOf {α : Type} (l : List α) : List (List α) :=
  ancestorsAux l.length l

/-- Model of `path.parents`: ancestors of the path, deepest first. -/
def pathParents (p : PyPath) : List PyPath :=
  (ancestorsOf p.segs).map (fun segs => { isAbs := p.isAbs, segs := segs })

/-- Model of `path.parent`. -/
def PyPath.parent (p : PyPath) : PyPath :=
  { isAbs := p.isAbs, segs := p.segs.dropLast }

/-- Model of `Path(...).name`: the final segment (empty for a bare root). -/
def PyPath.baseName (p : PyPath) : List Char := (p.segs.getLast?).getD []

/-- The `Project` descriptor: the fields of `Project.__init__`
(`_path`, `_environment_path`, `_sys_path`, `_smart_sys_path`,
`_load_unsafe_extensions`, `_django`, `added_sys_path`).  The memoized
`_environment` handle is not part of the persisted/compared state. -/
structure Project where
  path : PyPath
  environment_path : Option (List Char)
  sys_path : Option (List (List Char))
  smart_sys_path : Bool
  load_unsafe_extensions : Bool
  django : Bool
  added_sys_path : List (List Char)
deriving DecidableEq

/-- The `path` argument of `Project.__init__` is either a string or an
already-built path object; only the string form is converted. -/
inductive PathArg where
  | ofStr (s : List Char)
  | ofPath (p : PyPath)
deriving DecidableEq

/-- Model of `Project.__init__`: a string path is parsed and made absolute
(`Path(path).absolute()`); a path object is stored as-is.  `_django` is
always initialised to `False`. -/
def Project.init (cwd : List Seg) (path : PathArg)
    (environment_path : Option (List Char)) (load_unsafe_extensions : Bool)
    (sys_path : Option (List (List Char))) (added_sys_path : List (List Char))
    (smart_sys_path : Bool) : Project :=
  { path :=
      match path with
      | .ofStr s => (parsePath s).absolute cwd
      | .ofPath p => p
    environment_path := environment_path
    sys_path := sys_path
    smart_sys_path := smart_sys_path
    load_unsafe_extensions := load_unsafe_extensions
    django := false
    added_sys_path := added_sys_path }

/-- The field mapping stored in `.jedi/project.json` (keys after stripping
leading underscores; `_environment` and `_django` are popped before
serialization, and `path` is rendered with `str`). -/
structure SavedFields where
  path : List Char
  environment_path : Option (List Char)
  load_unsafe_extensions : Bool
  sys_path : Option (List (List Char))
  added_sys_path : List (List Char)
  smart_sys_path : Bool
deriving DecidableEq

/-- Model of `Project.save`: serializes `(_SERIALIZER_VERSION, data)` where
`data` holds every `__dict__` field except `_environment` and `_django`. -/
def Project.save (p : Project) : Int × SavedFields :=
  (1,
   { path := strOfPath p.path
     environment_path := p.environment_path
     load_unsafe_extensions := p.load_unsafe_extensions
     sys_path := p.sys_path
     added_sys_path := p.added_sys_path
     smart_sys_path := p.smart_sys_path })

/-- Failure modes of `Project.load`: `open` raising `FileNotFoundError`, or
the `WrongVersion` error for an unsupported `format_version`. -/
inductive LoadError where
  | fileNotFound
  | wrongVersion
deriving DecidableEq

/-- Model of `Project.load`: `none` stands for an absent config file (the
`open` call raises `FileNotFoundError`, which propagates); otherwise the
stored `[version, data]` record is checked: only `version == 1` constructs
`cls(**data)`, anything else raises `WrongVersion`. -/
def Project.loadM (cwd : List Seg) (file : Option (Int × SavedFields)) :
    Except LoadError Project :=
  match file with
  | none => .error .fileNotFound
  | some (version, data) =>
    if version = 1 then
      .ok (Project.init cwd (.ofStr data.path) data.environment_path
        data.load_unsafe_extensions data.sys_path data.added_sys_path
        data.smart_sys_path)
    else .error .wrongVersion

/-- Resolution-state context consumed by `_get_sys_path`: the environment's
reported sys path, the currently analysed script (if any), the external
buildout detector (already `str`-mapped), and the `__init__.py`-is_file probe
used during the ancestor walk. -/
structure InfState where
  envSysPath : List (List Char)
  scriptPath : Option PyPath
  buildout : PyPath → List (List Char)
  initFile : PyPath → Bool

/-- Model of `Project._get_base_sys_path`: the environment list with the
first empty-string entry removed (`list.remove('')`, `ValueError` ignored). -/
def baseSysPath (st : InfState) : List (List Char) :=
  st.envSysPath.erase []

/-- Model of `_remove_duplicates_from_path`: keeps each path's first
occurrence, tracking the already-seen set. -/
def removeDupAux : List (List Char) → List (List Char) → List (List Char)
  | [], _ => []
  | p :: rest, used =>
    if p ∈ used then removeDupAux rest used
    else p :: removeDupAux rest (p :: used)

/-- The function `_remove_duplicates_from_path` applied from an empty seen-set. -/
def removeDuplicatesFromPath (l : List (List Char)) : List (List Char) :=
  removeDupAux l []

/-- The ancestor walk of `_get_sys_path`: iterates over
`script_path.parents`, breaking when the ancestor equals `self._path` or
`self._path` is no longer among its parents, skipping ancestors holding an
`__init__.py` file unless `add_init_paths`. -/
def collectParents (st : InfState) (root : PyPath) (addInitPaths : Bool) :
    List PyPath → List PyPath
  | [] => []
  | d :: rest =>
    if d = root ∨ root ∉ pathParents d then []
    else if addInitPaths = false ∧ st.initFile d then
      collectParents st root addInitPaths rest
    else d :: collectParents st root addInitPaths rest

/-- Model of `Project._get_sys_path`.  `suffixed` starts as
`added_sys_path`; the base list is the explicit `_sys_path` override or the
environment base list; in smart mode the project path is prefixed and the
buildout paths plus the reversed ancestor walk are suffixed; a django
project prefixes the project path again; the concatenation is deduplicated. -/
def getSysPathM (proj : Project) (st : InfState)
    (addParentPaths addInitPaths : Bool) : List (List Char) :=
  let sysPath :=
    match proj.sys_path with
    | none => baseSysPath st
    | some sp => sp
  let (prefixed, suffixed) :=
    if proj.smart_sys_path then
      let pre := [strOfPath proj.path]
      match st.scriptPath with
      | none => (pre, proj.added_sys_path)
      | some sp =>
        let suf := proj.added_sys_path ++ st.buildout sp
        if addParentPaths then
          let traversed := collectParents st proj.path addInitPaths (pathParents sp)
          (pre, suf ++ (traversed.reverse.map strOfPath))
        else (pre, suf)
    else ([], proj.added_sys_path)
  let prefixed := if proj.django then prefixed ++ [strOfPath proj.path] else prefixed
  removeDuplicatesFromPath (prefixed ++ sysPath ++ suffixed)

/-- Phase 3 of `_search_func`: the synthesized sys path (computed with the
default `add_parent_paths=True, add_init_paths=False`) restricted by
`not p.startswith(str(self._path))`. -/
def phase3SysPath (proj : Project) (st : InfState) : List (List Char) :=
  (getSysPathM proj st true false).filter
    (fun p => !((strOfPath proj.path).isPrefixOf p))

/-- Outcome of attempting `Project.load(dir)` during root discovery:
success, a caught absence (`FileNotFoundError`/`IsADirectoryError`/
`PermissionError`), a `NotADirectoryError` (which `continue`s the walk), or
an uncaught `WrongVersion`. -/
inductive LoadOutcome where
  | success (proj : Project)
  | absent
  | notADirectory
  | badVersion
deriving DecidableEq

/-- The filesystem probes consulted by `get_default_project`. -/
structure DiscFS where
  saved : PyPath → LoadOutcome
  initExists : PyPath → Bool
  isFile : PyPath → Bool
  isDjango : PyPath → Bool
  isPotential : PyPath → Bool
  isDir : PyPath → Bool

/-- Result of `get_default_project`: a descriptor reloaded from a saved
config, a freshly constructed `Project(root)` (with its `_django` flag), or
a propagated `WrongVersion`. -/
inductive DiscResult where
  | loaded (proj : Project)
  | project (root : PyPath) (django : Bool)
  | versionError
deriving DecidableEq

/-- The `for dir in chain([check], check.parents)` loop of
`get_default_project`, threading the `probable_path` and
`first_no_init_file` candidates; returns either an early result or the
final candidate pair. -/
def discoverLoop (fs : DiscFS) :
    List PyPath → Option PyPath → Option PyPath →
    Sum DiscResult (Option PyPath × Option PyPath)
  | [], probable, firstNoInit => .inr (probable, firstNoInit)
  | dir :: rest, probable, firstNoInit =>
    match fs.saved dir with
    | .success proj => .inl (.loaded proj)
    | .badVersion => .inl .versionError
    | .notADirectory => discoverLoop fs rest probable firstNoInit
    | .absent =>
      if firstNoInit = none ∧ fs.initExists dir then
        discoverLoop fs rest probable firstNoInit
      else
        let fni := if firstNoInit = none ∧ fs.isFile dir = false then some dir
                   else firstNoInit
        if fs.isDjango dir then .inl (.project dir true)
        else
          let prob := if probable = none ∧ fs.isPotential dir then some dir
                      else probable
          discoverLoop fs rest prob fni

/-- The directories visited by discovery: `check` itself then its parents. -/
def walkDirs (check : PyPath) : List PyPath := check :: pathParents check

/-- Model of `get_default_project`: walks `check = path.absolute()` and its
parents; on fall-through returns `Project(probable_path)`, else
`Project(first_no_init_file)`, else `Project(path if path.is_dir() else
path.parent)` (note: the original, possibly relative, `path`). -/
def getDefaultProject (fs : DiscFS) (cwd : List Seg) (pathArg : PyPath) :
    DiscResult :=
  let check := pathArg.absolute cwd
  match discoverLoop fs (walkDirs check) none none with
  | .inl r => r
  | .inr (probable, firstNoInit) =>
    match probable with
    | some d => .project d false
    | none =>
      match firstNoInit with
      | some d => .project d false
      | none => .project (if fs.isDir check then pathArg else pathArg.parent) false

/-- The kinds a search result can have, as far as `_try_to_skip_duplicates`
distinguishes them (`definition.type == 'module'` or anything else). -/
inductive DefType where
  | module
  | other
deriving DecidableEq

/-- A search result as observed by the dedup wrapper: its syntax-tree
identity (`definition._name.tree_name`, possibly `None`), its kind, and its
module file path (possibly `None`). -/
structure Defn where
  treeName : Option Nat
  typ : DefType
  modulePath : Option PyPath
deriving DecidableEq

/-- One step's module-path membership test:
`definition.module_path is not None and definition.module_path in found`. -/
def modulePathSeen (o : Option PyPath) (found : List PyPath) : Bool :=
  match o with
  | none => false
  | some mp => decide (mp ∈ found)

/-- The loop of `_try_to_skip_duplicates`: drops a result whose non-`None`
tree node was already yielded; for module results with a file path, drops a
result whose path was already yielded and otherwise records the path; every
yielded result records its tree node. -/
def skipDupAux : List Defn → List (Option Nat) → List PyPath → List Defn
  | [], _, _ => []
  | d :: rest, foundTrees, foundModules =>
    if d.treeName ≠ none ∧ d.treeName ∈ foundTrees then
      skipDupAux rest foundTrees foundModules
    else if d.typ = .module ∧ modulePathSeen d.modulePath foundModules then
      skipDupAux rest foundTrees foundModules
    else if d.typ = .module ∧ d.modulePath ≠ none then
      d :: skipDupAux rest (foundTrees ++ [d.treeName])
        (foundModules ++ d.modulePath.toList)
    else
      d :: skipDupAux rest (foundTrees ++ [d.treeName]) foundModules

/-- The wrapper `_try_to_skip_duplicates` applied to the merged result stream. -/
def skipDuplicates (l : List Defn) : List Defn := skipDupAux l [] []

/-- An entry produced by `recurse_find_python_folders_and_files`: either a
folder (`file_io is None`) or a plain file. -/
inductive Entry where
  | folder (fp : PyPath)
  | file (fp : PyPath)
deriving DecidableEq

/-- Phase 1 of `_search_func`: returns `(file_ios, matched)` where
`file_ios` is the file list collected for phase 2 (every plain file is
appended *before* the name comparison) and `matched` are the entries whose
base name matched the query's last segment (folders: `name` or
`name-stubs`; files: `name.py` or `name.pyi`). -/
def phase1Scan (name : List Char) : List Entry → List PyPath × List PyPath
  | [] => ([], [])
  | .folder fp :: rest =>
    let (fls, ms) := phase1Scan name rest
    if fp.baseName = name ∨ fp.baseName = name ++ ['-', 's', 't', 'u', 'b', 's'] then
      (fls, fp :: ms)
    else (fls, ms)
  | .file fp :: rest =>
    let (fls, ms) := phase1Scan name rest
    (fp :: fls,
     if fp.baseName = name ++ ['.', 'p', 'y'] ∨ fp.baseName = name ++ ['.', 'p', 'y', 'i'] then
       fp :: ms
     else ms)

/-- The plain files among the traversal entries, in traversal order. -/
def allProjectFiles (entries : List Entry) : List PyPath :=
  entries.filterMap (fun e => match e with | .file fp => some fp | .folder _ => none)

/-- Spec notion for phase 3's exclusion: a path lies under (or equals) the
project root when it extends the root's segments. -/
def liesUnder (root q : PyPath) : Prop :=
  root.isAbs = q.isAbs ∧ ∃ rest, q.segs = root.segs ++ rest

/-- Spec-side description of which walk directories are actually consulted
by discovery's marker checks: while no `__init__`-free candidate has been
recorded, a directory holding `__init__.py` is skipped by the `continue`. -/
def consultedFrom (fs : DiscFS) : List PyPath → Bool → List PyPath
  | [], _ => []
  | d :: rest, seen =>
    if seen then d :: consultedFrom fs rest true
    else if fs.initExists d then consultedFrom fs rest false
    else d :: consultedFrom fs rest (fs.isFile d = false)

/-- Index of the first occurrence of a path in a path list. -/
def firstIdx (l : List (List Char)) (a : List Char) : Nat :=
  l.findIdx (fun x => decide (x = a))

/-- The base list `_get_sys_path` starts from: the explicit override when
set, otherwise the environment base list. -/
def chosenBase (proj : Project) (st : InfState) : List (List Char) :=
  match proj.sys_path with
  | none => baseSysPath st
  | some sp => sp

/-- Non-smart project used to witness C8. -/
def c8wproj : Project := ⟨⟨true, [['p']]⟩, none, none, false, false, false, []⟩

/-- Environment with a duplicate entry, witnessing C8's deduplication. -/
def c8wst : InfState := ⟨[['a'], ['b'], ['a']], none, fun _ => [], fun _ => false⟩

/-- Non-smart project whose environment reports two empty-string entries. -/
def c8cproj : Project := ⟨⟨true, [['p']]⟩, none, none, false, false, false, []⟩

/-- Environment sys path `['', '', ]`: `list.remove('')` only removes the
first occurrence. -/
def c8cst : InfState := ⟨[[], []], none, fun _ => [], fun _ => false⟩

/-- Entries used to witness C10: a file whose name matches the query. -/
def c10entries : List Entry :=
  [.file ⟨true, [['p'], ['f', '.', 'p', 'y']]⟩, .folder ⟨true, [['p'], ['d']]⟩]

/-- Smart-mode project rooted at `/p`, used to witness and refute C4. -/
def c4proj : Project := ⟨⟨true, [['p']]⟩, none, none, true, false, false, []⟩

/-- Resolution context with script `/p/a/b/f`. -/
def c4st : InfState :=
  ⟨[], some ⟨true, [['p'], ['a'], ['b'], ['f']]⟩, fun _ => [], fun _ => false⟩

/-- Project rooted at `/p`, whose environment base path also lists `/p`. -/
def c1proj : Project := ⟨⟨true, [['p']]⟩, none, none, true, false, false, []⟩

/-- Environment reporting `/p` on the interpreter's base path. -/
def c1st : InfState := ⟨[['/', 'p']], none, fun _ => [], fun _ => false⟩

/-- A stored configuration record used to witness C5. -/
def c5data : SavedFields := ⟨['/', 'p'], none, false, none, [], true⟩

/-- Descriptor used to witness C6 (django flag set, to show it is reset). -/
def c6proj : Project :=
  ⟨⟨true, [['p'], ['q']]⟩, some ['/', 'v'], some [['/', 'x']], false, true, true,
    [['/', 'y']]⟩

/-- The root path carried by a discovery result is absolute
(vacuous for a propagated version error). -/
def discResultRootAbs : DiscResult → Prop
  | .loaded proj => proj.path.isAbs = true
  | .project root _ => root.isAbs = true
  | .versionError => True

/-- Relative path object: `Project(Path('a'))` stores the path unchanged. -/
def c9rel : PyPath := ⟨false, [['a']]⟩

/-- Discovery filesystem with no saved configs, used to witness C9. -/
def c9fs : DiscFS :=
  { saved := fun _ => .absent
    initExists := fun _ => false
    isFile := fun _ => false
    isDjango := fun _ => false
    isPotential := fun _ => false
    isDir := fun _ => true }

/-- The candidate test for `first_no_init_file`: not holding `__init__.py`
and not a file. -/
def fniPred (fs : DiscFS) (d : PyPath) : Bool :=
  !fs.initExists d && !fs.isFile d

/-- The `first_no_init_file` state after the walk processes `pre`. -/
def fniOut (fs : DiscFS) (pre : List PyPath) (fni : Option PyPath) :
    Option PyPath :=
  match fni with
  | some x => some x
  | none => pre.find? (fniPred fs)

/-- The `probable_path` state after the walk processes `pre`. -/
def prOut (fs : DiscFS) (pre : List PyPath) (pr fni : Option PyPath) :
    Option PyPath :=
  match pr with
  | some x => some x
  | none => (consultedFrom fs pre fni.isSome).find? fs.isPotential

/-- Saved descriptor reloaded during the C3 witness. -/
def c3proj : Project := ⟨⟨true, [['s']]⟩, none, none, true, false, false, []⟩

/-- Filesystem with a saved configuration at `/a` only. -/
def c3fs : DiscFS :=
  { saved := fun p => if p = ⟨true, [['a']]⟩ then .success c3proj else .absent
    initExists := fun _ => false
    isFile := fun _ => false
    isDjango := fun _ => false
    isPotential := fun _ => false
    isDir := fun _ => true }

/-- Filesystem where `/a/b` holds both `__init__.py` and a generic project
marker, and nothing else holds any signal. -/
def c3cfs : DiscFS :=
  { saved := fun _ => .absent
    initExists := fun p => decide (p = ⟨true, [['a'], ['b']]⟩)
    isFile := fun _ => false
    isDjango := fun _ => false
    isPotential := fun p => decide (p = ⟨true, [['a'], ['b']]⟩)
    isDir := fun _ => true }

/-- Filesystem whose only signal is a django root at `/a/b`. -/
def c7fs : DiscFS :=
  { saved := fun _ => .absent
    initExists := fun _ => false
    isFile := fun _ => false
    isDjango := fun p => decide (p = ⟨true, [['a'], ['b']]⟩)
    isPotential := fun _ => false
    isDir := fun _ => true }

/-- Filesystem where `/a/b` is a django root that also holds
`__init__.py`, and nothing else holds any signal. -/
def c7cfs : DiscFS :=
  { saved := fun _ => .absent
    initExists := fun p => decide (p = ⟨true, [['a'], ['b']]⟩)
    isFile := fun _ => false
    isDjango := fun p => decide (p = ⟨true, [['a'], ['b']]⟩)
    isPotential := fun _ => false
    isDir := fun _ => true }

theorem mem_removeDupAux (l used : List (List Char)) (a : List Char) :
    a ∈ removeDupAux l used ↔ a ∈ l ∧ a ∉ used := by
  induction l generalizing used with
  | nil => simp [removeDupAux]
  | cons p rest ih =>
    by_cases hp : p ∈ used
    · rw [removeDupAux, if_pos hp, ih]
      constructor
      · rintro ⟨ha, hu⟩
        exact ⟨List.mem_cons_of_mem _ ha, hu⟩
      · rintro ⟨ha, hu⟩
        rcases List.mem_cons.1 ha with h | h
        · exact absurd (h ▸ hp) hu
        · exact ⟨h, hu⟩
    · rw [removeDupAux, if_neg hp]
      constructor
      · intro hmem
        rcases List.mem_cons.1 hmem with h | h
        · exact ⟨h ▸ List.mem_cons_self p rest, h ▸ hp⟩
        · have h2 := (ih (p :: used)).1 h
          exact ⟨List.mem_cons_of_mem _ h2.1,
            fun hc => h2.2 (List.mem_cons_of_mem _ hc)⟩
      · rintro ⟨ha, hu⟩
        rcases List.mem_cons.1 ha with h | h
        · exact h ▸ List.mem_cons_self p _
        · by_cases hap : a = p
          · exact hap ▸ List.mem_cons_self p _
          · refine List.mem_cons_of_mem _ ((ih (p :: used)).2 ⟨h, fun hc => ?_⟩)
            rcases List.mem_cons.1 hc with h1 | h1
            · exact hap h1
            · exact hu h1

theorem nodup_removeDupAux (l used : List (List Char)) :
    (removeDupAux l used).Nodup := by
  induction l generalizing used with
  | nil => simp [removeDupAux]
  | cons p rest ih =>
    by_cases hp : p ∈ used
    · rw [removeDupAux, if_pos hp]
      exact ih used
    · rw [removeDupAux, if_neg hp]
      refine List.nodup_cons.2 ⟨fun hc => ?_, ih (p :: used)⟩
      exact ((mem_removeDupAux _ _ _).1 hc).2 (List.mem_cons_self _ _)

theorem firstIdx_cons_self (p : List Char) (l : List (List Char)) :
    firstIdx (p :: l) p = 0 := by
  simp [firstIdx, List.findIdx_cons]

theorem firstIdx_cons_ne (p a : List Char) (l : List (List Char)) (h : a ≠ p) :
    firstIdx (p :: l) a = firstIdx l a + 1 := by
  simp [firstIdx, List.findIdx_cons, Ne.symm h]

theorem pairwise_firstIdx_removeDupAux (l used : List (List Char)) :
    (removeDupAux l used).Pairwise (fun a b => firstIdx l a < firstIdx l b) := by
  induction l generalizing used with
  | nil => simp [removeDupAux]
  | cons p rest ih =>
    by_cases hp : p ∈ used
    · rw [removeDupAux, if_pos hp]
      refine List.Pairwise.imp_of_mem ?_ (ih used)
      intro a b ha hb hlt
      have haa := (mem_removeDupAux _ _ _).1 ha
      have hbb := (mem_removeDupAux _ _ _).1 hb
      have hap : a ≠ p := fun h => haa.2 (h ▸ hp)
      have hbp : b ≠ p := fun h => hbb.2 (h ▸ hp)
      rw [firstIdx_cons_ne _ _ _ hap, firstIdx_cons_ne _ _ _ hbp]
      omega
    · rw [removeDupAux, if_neg hp]
      refine List.pairwise_cons.2 ⟨?_, ?_⟩
      · intro b hb
        have hbb := (mem_removeDupAux _ _ _).1 hb
        have hbp : b ≠ p := fun h => hbb.2 (h ▸ List.mem_cons_self _ _)
        rw [firstIdx_cons_self, firstIdx_cons_ne _ _ _ hbp]
        omega
      · refine List.Pairwise.imp_of_mem ?_ (ih (p :: used))
        intro a b ha hb hlt
        have haa := (mem_removeDupAux _ _ _).1 ha
        have hbb := (mem_removeDupAux _ _ _).1 hb
        have hap : a ≠ p := fun h => haa.2 (h ▸ List.mem_cons_self _ _)
        have hbp : b ≠ p := fun h => hbb.2 (h ▸ List.mem_cons_self _ _)
        rw [firstIdx_cons_ne _ _ _ hap, firstIdx_cons_ne _ _ _ hbp]
        omega

/-- C8 (amended): when `smart_sys_path` is false and the framework (django)
flag is unset, `_get_sys_path` returns the base list — the explicit
override when set, otherwise the environment list with its *first*
empty-string entry removed — followed by `added_sys_path`, deduplicated so
each unique path appears once, in first-occurrence order. -/
theorem non_smart_sys_path (proj : Project) (st : InfState)
    (hs : proj.smart_sys_path = false) (hd : proj.django = false) :
    getSysPathM proj st true false =
      removeDuplicatesFromPath (chosenBase proj st ++ proj.added_sys_path) ∧
    (getSysPathM proj st true false).Nodup ∧
    (∀ a, a ∈ getSysPathM proj st true false ↔
      a ∈ chosenBase proj st ++ proj.added_sys_path) ∧
    (getSysPathM proj st true false).Pairwise
      (fun a b => firstIdx (chosenBase proj st ++ proj.added_sys_path) a <
        firstIdx (chosenBase proj st ++ proj.added_sys_path) b) := by
  have h1 : getSysPathM proj st true false =
      removeDuplicatesFromPath (chosenBase proj st ++ proj.added_sys_path) := by
    simp only [getSysPathM, hs, hd, Bool.false_eq_true, if_false, chosenBase,
      List.nil_append]
  refine ⟨h1, ?_, ?_, ?_⟩
  · rw [h1]
    exact nodup_removeDupAux _ _
  · intro a
    rw [h1]
    unfold removeDuplicatesFromPath
    rw [mem_removeDupAux]
    simp
  · rw [h1]
    exact pairwise_firstIdx_removeDupAux _ _

theorem non_smart_sys_path_witness :
    getSysPathM c8wproj c8wst true false = [['a'], ['b']] ∧
    (getSysPathM c8wproj c8wst true false).Nodup := by
  exact ⟨by decide, (non_smart_sys_path c8wproj c8wst rfl rfl).2.1⟩

/-- C8 counterexample: the claim says *every* empty-string entry is removed
from the interpreter-provided base list, so with no override, no extra
paths, `smart_sys_path` false and environment `['', '']` the result would
be `[]`; the code only removes the first `''` and returns `['']`. -/
theorem base_sys_path_empty_entry_counterexample :
    getSysPathM c8cproj c8cst true false = [[]] ∧
    ([[]] : List (List Char)) ≠ [] := by
  exact ⟨by decide, by decide⟩

theorem skipDupAux_avoid (l : List Defn) (fT : List (Option Nat)) (fM : List PyPath) :
    ∀ d ∈ skipDupAux l fT fM,
      (d.treeName ≠ none → d.treeName ∉ fT) ∧
      (d.typ = .module → ∀ p, d.modulePath = some p → p ∉ fM) := by
  induction l generalizing fT fM with
  | nil => simp [skipDupAux]
  | cons d rest ih =>
    intro e he
    simp only [skipDupAux] at he
    by_cases h1 : d.treeName ≠ none ∧ d.treeName ∈ fT
    · rw [if_pos h1] at he
      exact ih fT fM e he
    · rw [if_neg h1] at he
      by_cases h2 : d.typ = DefType.module ∧ modulePathSeen d.modulePath fM = true
      · rw [if_pos h2] at he
        exact ih fT fM e he
      · rw [if_neg h2] at he
        by_cases h3 : d.typ = DefType.module ∧ d.modulePath ≠ none
        · rw [if_pos h3] at he
          rcases List.mem_cons.1 he with rfl | hmem
          · constructor
            · intro hne hc
              exact h1 ⟨hne, hc⟩
            · intro hm p hp hc
              exact h2 ⟨hm, by simp [modulePathSeen, hp, hc]⟩
          · have h4 := ih _ _ e hmem
            constructor
            · intro hne hc
              exact h4.1 hne (List.mem_append.2 (Or.inl hc))
            · intro hm p hp hc
              exact h4.2 hm p hp (List.mem_append.2 (Or.inl hc))
        · rw [if_neg h3] at he
          rcases List.mem_cons.1 he with rfl | hmem
          · constructor
            · intro hne hc
              exact h1 ⟨hne, hc⟩
            · intro hm p hp hc
              exact h3 ⟨hm, by simp [hp]⟩
          · have h4 := ih _ _ e hmem
            constructor
            · intro hne hc
              exact h4.1 hne (List.mem_append.2 (Or.inl hc))
            · exact h4.2

theorem skipDupAux_pairwise (l : List Defn) (fT : List (Option Nat)) (fM : List PyPath) :
    (skipDupAux l fT fM).Pairwise
      (fun a b =>
        (∀ t, a.treeName = some t → b.treeName ≠ some t) ∧
        (a.typ = .module → b.typ = .module →
          ∀ p, a.modulePath = some p → b.modulePath ≠ some p)) := by
  induction l generalizing fT fM with
  | nil => simp [skipDupAux]
  | cons d rest ih =>
    simp only [skipDupAux]
    by_cases h1 : d.treeName ≠ none ∧ d.treeName ∈ fT
    · rw [if_pos h1]
      exact ih fT fM
    · rw [if_neg h1]
      by_cases h2 : d.typ = DefType.module ∧ modulePathSeen d.modulePath fM = true
      · rw [if_pos h2]
        exact ih fT fM
      · rw [if_neg h2]
        by_cases h3 : d.typ = DefType.module ∧ d.modulePath ≠ none
        · rw [if_pos h3]
          refine List.pairwise_cons.2 ⟨?_, ih _ _⟩
          intro b hb
          have h4 := skipDupAux_avoid _ _ _ b hb
          constructor
          · intro t hat hbt
            refine h4.1 (by simp [hbt]) ?_
            rw [hbt, ← hat]
            exact List.mem_append.2 (Or.inr (List.mem_singleton.2 rfl))
          · intro ham hbm p hap hbp
            refine h4.2 hbm p hbp ?_
            rw [List.mem_append]
            refine Or.inr ?_
            simp [hap]
        · rw [if_neg h3]
          refine List.pairwise_cons.2 ⟨?_, ih _ _⟩
          intro b hb
          have h4 := skipDupAux_avoid _ _ _ b hb
          constructor
          · intro t hat hbt
            refine h4.1 (by simp [hbt]) ?_
            rw [hbt, ← hat]
            exact List.mem_append.2 (Or.inr (List.mem_singleton.2 rfl))
          · intro ham hbm p hap hbp
            exact h3 ⟨ham, by simp [hap]⟩

/-- C2: over any merged result stream, the `_try_to_skip_duplicates`
wrapper yields no two results sharing the same non-`None` syntax-tree
identity, and no two module-kind results sharing the same (non-`None`)
module file path; in particular a `foo.py` file and a `foo` package can
contribute at most one module match with a given path. -/
theorem skipDuplicates_no_duplicate_identities (l : List Defn) :
    (skipDuplicates l).Pairwise
      (fun a b =>
        (∀ t, a.treeName = some t → b.treeName ≠ some t) ∧
        (a.typ = .module → b.typ = .module →
          ∀ p, a.modulePath = some p → b.modulePath ≠ some p)) :=
  skipDupAux_pairwise l [] []

/-- C10: every plain file encountered by the phase-1 traversal loop is
appended to the `file_ios` list consumed by phase 2 — the append happens
before the name comparison, so the file list is exactly the list of all
plain files in traversal order, and any file matching the query's last
segment is in it as well. -/
theorem phase1_records_all_files (name : List Char) (entries : List Entry) :
    (phase1Scan name entries).1 = allProjectFiles entries ∧
    (∀ fp, Entry.file fp ∈ entries → fp ∈ (phase1Scan name entries).1) := by
  have h1 : ∀ es : List Entry, (phase1Scan name es).1 = allProjectFiles es := by
    intro es
    induction es with
    | nil => rfl
    | cons e rest ih =>
      cases e with
      | folder fp =>
        by_cases hb : fp.baseName = name ∨ fp.baseName = name ++ ['-', 's', 't', 'u', 'b', 's']
        · simp [phase1Scan, hb, allProjectFiles, List.filterMap_cons,
            ← ih, allProjectFiles]
          simp [allProjectFiles] at ih
          exact ih
        · simp [phase1Scan, hb, allProjectFiles, List.filterMap_cons]
          simp [allProjectFiles] at ih
          exact ih
      | file fp =>
        simp [phase1Scan, allProjectFiles, List.filterMap_cons]
        simp [allProjectFiles] at ih
        exact ih
  refine ⟨h1 entries, fun fp hf => ?_⟩
  rw [h1 entries]
  unfold allProjectFiles
  exact List.mem_filterMap.2 ⟨.file fp, hf, rfl⟩

theorem phase1_records_all_files_witness :
    (phase1Scan ['f'] c10entries).1 = allProjectFiles c10entries ∧
    (⟨true, [['p'], ['f', '.', 'p', 'y']]⟩ : PyPath) ∈ (phase1Scan ['f'] c10entries).1 := by
  exact ⟨(phase1_records_all_files ['f'] c10entries).1,
    (phase1_records_all_files ['f'] c10entries).2 _ (by decide)⟩

theorem strSegs_append (r s : List Seg) :
    strSegs (r ++ s) = strSegs r ++ strSegs s := by
  induction r with
  | nil => rfl
  | cons x xs ih => simp [strSegs, ih]

theorem PyPath.absolute_isAbs (p : PyPath) (cwd : List Seg) :
    (p.absolute cwd).isAbs = true := by
  unfold PyPath.absolute
  split
  · assumption
  · rfl

theorem PyPath.absolute_of_isAbs (p : PyPath) (cwd : List Seg)
    (h : p.isAbs = true) : p.absolute cwd = p := by
  simp [PyPath.absolute, h]

theorem proper_prefix_iff_prefix_dropLast {α : Type} (l l' : List α)
    (h : l ≠ []) : (l' <+: l ∧ l' ≠ l) ↔ l' <+: l.dropLast := by
  constructor
  · rintro ⟨hp, hne⟩
    have hlen : l'.length < l.length := by
      rcases Nat.lt_or_ge l'.length l.length with h1 | h1
      · exact h1
      · have h2 : l'.length = l.length :=
          Nat.le_antisymm hp.length_le h1
        exact absurd (List.IsPrefix.eq_of_length hp h2) hne
    have htake := List.prefix_iff_eq_take.1 hp
    rw [List.dropLast_eq_take]
    have : l' = List.take l'.length (List.take (l.length - 1) l) := by
      rw [List.take_take]
      have hm : l'.length ⊓ (l.length - 1) = l'.length := by
        simp only [Nat.min_def]
        split
        · rfl
        · omega
      rw [hm]
      exact htake
    rw [this]
    exact List.take_prefix _ _
  · intro hp
    have hdl : l.dropLast <+: l := by
      rw [List.dropLast_eq_take]
      exact List.take_prefix _ _
    refine ⟨hp.trans hdl, fun hc => ?_⟩
    have h1 := hp.length_le
    rw [List.length_dropLast] at h1
    have h2 : 0 < l.length := List.length_pos.2 h
    subst hc
    omega

theorem mem_ancestorsAux {α : Type} :
    ∀ (n : Nat) (l l' : List α), l.length ≤ n →
      (l' ∈ ancestorsAux n l ↔ l' <+: l ∧ l' ≠ l) := by
  intro n
  induction n with
  | zero =>
    intro l l' hl
    have : l = [] := List.length_eq_zero.1 (Nat.le_zero.1 hl)
    subst this
    simp only [ancestorsAux, List.not_mem_nil, false_iff]
    rintro ⟨hp, hne⟩
    exact hne (List.prefix_nil.1 hp)
  | succ n ih =>
    intro l l' hl
    cases l with
    | nil =>
      simp only [ancestorsAux, List.not_mem_nil, false_iff]
      rintro ⟨hp, hne⟩
      exact hne (List.prefix_nil.1 hp)
    | cons x xs =>
      have hlen : ((x :: xs).dropLast).length ≤ n := by
        simp only [List.length_cons] at hl
        simp only [List.length_dropLast, List.length_cons]
        omega
      have hne : (x :: xs) ≠ ([] : List α) := by simp
      simp only [ancestorsAux, List.mem_cons]
      constructor
      · rintro (rfl | hmem)
        · exact (proper_prefix_iff_prefix_dropLast _ _ hne).2 List.prefix_rfl
        · exact (proper_prefix_iff_prefix_dropLast _ _ hne).2
            ((ih _ l' hlen).1 hmem).1
      · intro h
        have hpd : l' <+: (x :: xs).dropLast :=
          (proper_prefix_iff_prefix_dropLast _ _ hne).1 h
        by_cases heq : l' = (x :: xs).dropLast
        · exact Or.inl heq
        · exact Or.inr ((ih _ l' hlen).2 ⟨hpd, heq⟩)

theorem mem_ancestorsOf {α : Type} (l l' : List α) :
    l' ∈ ancestorsOf l ↔ l' <+: l ∧ l' ≠ l :=
  mem_ancestorsAux l.length l l' (Nat.le_refl _)

theorem pairwise_ancestorsAux {α : Type} :
    ∀ (n : Nat) (l : List α), l.length ≤ n →
      (ancestorsAux n l).Pairwise (fun a b => b <+: a ∧ b ≠ a) := by
  intro n
  induction n with
  | zero => intro l hl; simp [ancestorsAux]
  | succ n ih =>
    intro l hl
    cases l with
    | nil => simp [ancestorsAux]
    | cons x xs =>
      have hlen : ((x :: xs).dropLast).length ≤ n := by
        simp only [List.length_cons] at hl
        simp only [List.length_dropLast, List.length_cons]
        omega
      simp only [ancestorsAux]
      refine List.pairwise_cons.2 ⟨?_, ih _ hlen⟩
      intro b hb
      exact (mem_ancestorsAux n _ b hlen).1 hb

theorem pairwise_ancestorsOf {α : Type} (l : List α) :
    (ancestorsOf l).Pairwise (fun a b => b <+: a ∧ b ≠ a) :=
  pairwise_ancestorsAux l.length l (Nat.le_refl _)

theorem mem_pathParents (p q : PyPath) :
    q ∈ pathParents p ↔ q.isAbs = p.isAbs ∧ q.segs <+: p.segs ∧ q.segs ≠ p.segs := by
  unfold pathParents
  rw [List.mem_map]
  constructor
  · rintro ⟨segs, hmem, rfl⟩
    have h := (mem_ancestorsOf _ _).1 hmem
    exact ⟨rfl, h.1, h.2⟩
  · rintro ⟨hiso, hp, hne⟩
    refine ⟨q.segs, (mem_ancestorsOf _ _).2 ⟨hp, hne⟩, ?_⟩
    cases q
    simp at hiso
    simp [hiso]

theorem pathParents_isAbs (p q : PyPath) (h : q ∈ pathParents p) :
    q.isAbs = p.isAbs := ((mem_pathParents p q).1 h).1

theorem collectParents_break (st : InfState) (root : PyPath) (aip : Bool)
    (sp : PyPath) (houtside : root ∉ pathParents sp ∧ root ≠ sp) :
    collectParents st root aip (pathParents sp) = [] := by
  cases hpp : pathParents sp with
  | nil => rfl
  | cons d rest =>
    have hd : d ∈ pathParents sp := hpp ▸ List.mem_cons_self _ _
    have hcond : d = root ∨ root ∉ pathParents d := by
      by_contra hc
      push_neg at hc
      obtain ⟨hdne, hrin⟩ := hc
      have h1 := (mem_pathParents sp d).1 hd
      have h2 := (mem_pathParents d root).1 hrin
      have : root ∈ pathParents sp := by
        refine (mem_pathParents sp root).2 ⟨h2.1.trans h1.1, h2.2.1.trans h1.2.1, ?_⟩
        intro heq
        have hle1 := h2.2.1.length_le
        have hle2 := h1.2.1.length_le
        have hne1 : root.segs.length ≠ d.segs.length := by
          intro hlen
          exact h2.2.2 (List.IsPrefix.eq_of_length h2.2.1 hlen)
        have hne2 : d.segs.length ≠ sp.segs.length := by
          intro hlen
          exact h1.2.2 (List.IsPrefix.eq_of_length h1.2.1 hlen)
        rw [heq] at hle1
        omega
      exact houtside.1 this
    rw [collectParents, if_pos hcond]

theorem collectParents_skips_init (st : InfState) (root : PyPath)
    (l : List PyPath) :
    ∀ d ∈ collectParents st root false l, st.initFile d = false := by
  induction l with
  | nil => simp [collectParents]
  | cons e rest ih =>
    intro d hd
    rw [collectParents] at hd
    by_cases h1 : e = root ∨ root ∉ pathParents e
    · rw [if_pos h1] at hd
      exact absurd hd (List.not_mem_nil d)
    · rw [if_neg h1] at hd
      by_cases h2 : (false = false ∧ st.initFile e = true)
      · rw [if_pos h2] at hd
        exact ih d hd
      · rw [if_neg h2] at hd
        rcases List.mem_cons.1 hd with rfl | hmem
        · have h3 : ¬ st.initFile d = true := fun hc => h2 ⟨rfl, hc⟩
          simpa using h3
        · exact ih d hmem

theorem collectParents_sublist (st : InfState) (root : PyPath) (aip : Bool)
    (l : List PyPath) : (collectParents st root aip l).Sublist l := by
  induction l with
  | nil => simp [collectParents]
  | cons e rest ih =>
    rw [collectParents]
    by_cases h1 : e = root ∨ root ∉ pathParents e
    · rw [if_pos h1]
      exact List.nil_sublist _
    · rw [if_neg h1]
      by_cases h2 : (aip = false ∧ st.initFile e = true)
      · rw [if_pos h2]
        exact ih.cons e
      · rw [if_neg h2]
        exact ih.cons₂ e

/-- C4 (amended): with `smart_sys_path` true and a known script path (and
the framework flag unset), `_get_sys_path` equals the deduplicated
concatenation of the project path, the base list, and the suffix list
ending with the ancestor-walk entries; a script path outside the project
root's subtree contributes no ancestor entries; every surviving ancestor is
free of `__init__.py` unless `add_init_paths` is set; and the ancestor
entries appear in *reverse visit order*, i.e. each suffix entry is a strict
ancestor of the entries after it: shallowest first, deepest last (not
deepest first). -/
theorem sys_path_ancestor_walk (proj : Project) (st : InfState) (sp : PyPath)
    (addInitPaths : Bool) (hsm : proj.smart_sys_path = true)
    (hsp : st.scriptPath = some sp) (hd : proj.django = false) :
    getSysPathM proj st true addInitPaths =
      removeDuplicatesFromPath ([strOfPath proj.path] ++ chosenBase proj st ++
        (proj.added_sys_path ++ st.buildout sp ++
          ((collectParents st proj.path addInitPaths (pathParents sp)).reverse.map
            strOfPath))) ∧
    (proj.path ∉ pathParents sp ∧ proj.path ≠ sp →
      collectParents st proj.path addInitPaths (pathParents sp) = []) ∧
    (addInitPaths = false →
      ∀ d ∈ collectParents st proj.path addInitPaths (pathParents sp),
        st.initFile d = false) ∧
    (collectParents st proj.path addInitPaths (pathParents sp)).reverse.Pairwise
      (fun a b => a.segs <+: b.segs ∧ a ≠ b) := by
  refine ⟨?_, ?_, ?_, ?_⟩
  · simp only [getSysPathM, hsm, hsp, hd, chosenBase, if_true, Bool.false_eq_true,
      if_false, List.append_assoc]
  · intro houtside
    exact collectParents_break st proj.path addInitPaths sp houtside
  · rintro rfl
    exact collectParents_skips_init st proj.path (pathParents sp)
  · rw [List.pairwise_reverse]
    have hpp : (pathParents sp).Pairwise (fun a b => b.segs <+: a.segs ∧ b ≠ a) := by
      unfold pathParents
      rw [List.pairwise_map]
      refine List.Pairwise.imp_of_mem ?_ (pairwise_ancestorsOf sp.segs)
      intro a b _ _ hab
      refine ⟨hab.1, fun hc => hab.2 ?_⟩
      have := congrArg PyPath.segs hc
      simpa using this
    exact List.Pairwise.sublist (collectParents_sublist st proj.path addInitPaths _) hpp

theorem sys_path_ancestor_walk_witness :
    getSysPathM c4proj c4st true false =
      removeDuplicatesFromPath ([strOfPath c4proj.path] ++ chosenBase c4proj c4st ++
        (c4proj.added_sys_path ++ c4st.buildout ⟨true, [['p'], ['a'], ['b'], ['f']]⟩ ++
          ((collectParents c4st c4proj.path false
            (pathParents ⟨true, [['p'], ['a'], ['b'], ['f']]⟩)).reverse.map
              strOfPath))) ∧
    (collectParents c4st c4proj.path false
      (pathParents ⟨true, [['p'], ['a'], ['b'], ['f']]⟩)).reverse.Pairwise
        (fun a b => a.segs <+: b.segs ∧ a ≠ b) :=
  ⟨(sys_path_ancestor_walk c4proj c4st ⟨true, [['p'], ['a'], ['b'], ['f']]⟩
      false rfl rfl rfl).1,
   (sys_path_ancestor_walk c4proj c4st ⟨true, [['p'], ['a'], ['b'], ['f']]⟩
      false rfl rfl rfl).2.2.2⟩

/-- C4 counterexample: the surviving ancestors of `/p/a/b/f` under root
`/p` are visited deepest first (`/p/a/b` then `/p/a`), and the code appends
`reversed(traversed)`, so the suffix is `"/p/a", "/p/a/b"` — shallowest
first.  The claim's "deepest directory first" would demand
`"/p/a/b", "/p/a"`. -/
theorem sys_path_suffix_order_counterexample :
    getSysPathM c4proj c4st true false =
      [['/', 'p'], ['/', 'p', '/', 'a'], ['/', 'p', '/', 'a', '/', 'b']] ∧
    ([['/', 'p'], ['/', 'p', '/', 'a'], ['/', 'p', '/', 'a', '/', 'b']] :
        List (List Char)) ≠
      [['/', 'p'], ['/', 'p', '/', 'a', '/', 'b'], ['/', 'p', '/', 'a']] := by
  exact ⟨by decide, by decide⟩

theorem strOf_prefix_of_liesUnder (root q : PyPath) (habs : root.isAbs = true)
    (h : liesUnder root q) : strOfPath root <+: strOfPath q := by
  obtain ⟨hiso, rest, hsegs⟩ := h
  have hqabs : q.isAbs = true := hiso ▸ habs
  cases hroot : root.segs with
  | nil =>
    have h1 : strOfPath root = ['/'] := by simp [strOfPath, habs, hroot]
    rw [h1]
    cases hqsegs : q.segs with
    | nil =>
      have h2 : strOfPath q = ['/'] := by simp [strOfPath, hqabs, hqsegs]
      rw [h2]
    | cons x xs =>
      have h2 : strOfPath q = strSegs (x :: xs) := by simp [strOfPath, hqabs, hqsegs]
      rw [h2]
      exact ⟨x ++ strSegs xs, rfl⟩
  | cons s ss =>
    have h1 : strOfPath root = strSegs (s :: ss) := by simp [strOfPath, habs, hroot]
    have hq : q.segs = s :: (ss ++ rest) := by
      rw [hsegs, hroot]
      rfl
    have h2 : strOfPath q = strSegs (s :: (ss ++ rest)) := by
      simp [strOfPath, hqabs, hq]
    have h3 : strSegs (s :: (ss ++ rest)) = strSegs (s :: ss) ++ strSegs rest := by
      have := strSegs_append (s :: ss) rest
      simpa using this
    rw [h1, h2, h3]
    exact List.prefix_append _ _

/-- C1: phase 3 of `_search_func` filters the synthesized sys path with
`not p.startswith(str(self._path))`, so no entry lying under the project
root directory (the root itself included) is ever consulted: a module
reachable under the project root cannot produce a second, sys-path-phase
match. -/
theorem phase3_excludes_paths_under_root (proj : Project) (st : InfState)
    (q : PyPath) (habs : proj.path.isAbs = true) (hq : liesUnder proj.path q) :
    strOfPath q ∉ phase3SysPath proj st := by
  intro hmem
  unfold phase3SysPath at hmem
  have h2 := (List.mem_filter.1 hmem).2
  have hpre : (strOfPath proj.path).isPrefixOf (strOfPath q) = true :=
    List.isPrefixOf_iff_prefix.2 (strOf_prefix_of_liesUnder proj.path q habs hq)
  rw [hpre] at h2
  simp at h2

theorem phase3_excludes_paths_under_root_witness :
    strOfPath ⟨true, [['p'], ['f']]⟩ ∉ phase3SysPath c1proj c1st :=
  phase3_excludes_paths_under_root c1proj c1st ⟨true, [['p'], ['f']]⟩ rfl
    ⟨rfl, [['f']], rfl⟩

theorem splitSeg_append_no_slash (s r cur : List Char) (h : '/' ∉ s) :
    splitSeg (s ++ r) cur = splitSeg r (s.reverse ++ cur) := by
  induction s generalizing cur with
  | nil => simp [splitSeg]
  | cons c cs ih =>
    have hc : c ≠ '/' := fun hcc => h (hcc ▸ List.mem_cons_self _ _)
    have hcs : '/' ∉ cs := fun hm => h (List.mem_cons_of_mem _ hm)
    rw [List.cons_append, splitSeg, if_neg (fun hcc => hc (by simpa using hcc))]
    rw [ih (c :: cur) hcs]
    simp

theorem splitSeg_strSegs (rest : List Seg) (s : Seg) (hs : '/' ∉ s)
    (hwf : ∀ u ∈ rest, u ≠ [] ∧ '/' ∉ u) :
    splitSeg (s ++ strSegs rest) [] = s :: rest := by
  induction rest generalizing s with
  | nil =>
    rw [strSegs, List.append_nil, ← List.append_nil s]
    rw [splitSeg_append_no_slash s [] [] hs]
    simp [splitSeg]
  | cons t ts ih =>
    rw [strSegs, splitSeg_append_no_slash s _ [] hs]
    rw [splitSeg, if_pos rfl]
    have ht := hwf t (List.mem_cons_self _ _)
    rw [ih t ht.2 (fun u hu => hwf u (List.mem_cons_of_mem _ hu))]
    simp

theorem parse_strOfPath (q : PyPath) (habs : q.isAbs = true)
    (hne : q.segs ≠ []) (hwf : ∀ u ∈ q.segs, u ≠ [] ∧ '/' ∉ u) :
    parsePath (strOfPath q) = q := by
  obtain ⟨b, segs⟩ := q
  simp only at habs
  subst habs
  cases segs with
  | nil => exact absurd rfl hne
  | cons s rest =>
    have hs := hwf s (List.mem_cons_self _ _)
    have hstr : strOfPath ⟨true, s :: rest⟩ = '/' :: (s ++ strSegs rest) := by
      simp [strOfPath, strSegs]
    rw [hstr]
    have hbody : s ++ strSegs rest ≠ [] := by
      intro hc
      exact hs.1 (List.append_eq_nil.1 hc).1
    simp only [parsePath, if_pos rfl, if_neg hbody]
    rw [splitSeg_strSegs rest s hs.2 (fun u hu => hwf u (List.mem_cons_of_mem _ hu))]
    simp

/-- C5: `Project.load` accepts a stored record `[version, fields]` exactly
when `version == 1`; any other version raises `WrongVersion`; and an absent
configuration file propagates the file-not-found condition. -/
theorem project_load_version_gate :
    (∀ (cwd : List Seg) (v : Int) (data : SavedFields),
      (∃ proj, Project.loadM cwd (some (v, data)) = .ok proj) ↔ v = 1) ∧
    (∀ (cwd : List Seg) (v : Int) (data : SavedFields), v ≠ 1 →
      Project.loadM cwd (some (v, data)) = .error .wrongVersion) ∧
    (∀ cwd : List Seg, Project.loadM cwd none = .error .fileNotFound) := by
  refine ⟨?_, ?_, ?_⟩
  · intro cwd v data
    constructor
    · rintro ⟨proj, hp⟩
      by_contra hv
      simp [Project.loadM, hv] at hp
    · rintro rfl
      refine ⟨Project.init cwd (.ofStr data.path) data.environment_path
        data.load_unsafe_extensions data.sys_path data.added_sys_path
        data.smart_sys_path, ?_⟩
      simp [Project.loadM]
  · intro cwd v data hv
    simp [Project.loadM, hv]
  · intro cwd
    rfl

theorem project_load_version_gate_witness :
    Project.loadM [] (some (2, c5data)) = .error .wrongVersion ∧
    Project.loadM [] none = .error .fileNotFound :=
  ⟨project_load_version_gate.2.1 [] 2 c5data (by decide),
   project_load_version_gate.2.2 []⟩

/-- C6: saving a descriptor with an absolute (well-formed) root path and
loading the result back reproduces every persisted field — root path,
sys-path override, smart flag, extra trailing paths, unsafe-extension flag
and environment path; the framework (django) flag is reset to false, and
the memoized environment handle is not part of the record at all. -/
theorem save_load_roundtrip (cwd : List Seg) (p : Project)
    (habs : p.path.isAbs = true) (hne : p.path.segs ≠ [])
    (hwf : ∀ u ∈ p.path.segs, u ≠ [] ∧ '/' ∉ u) :
    Project.loadM cwd (some p.save) = .ok { p with django := false } := by
  obtain ⟨pp, pe, ps, psm, pl, pd, pa⟩ := p
  simp only at habs hne hwf
  have hparse : parsePath (strOfPath pp) = pp := parse_strOfPath pp habs hne hwf
  simp only [Project.save, Project.loadM, Project.init, hparse,
    PyPath.absolute_of_isAbs pp cwd habs]
  simp

theorem save_load_roundtrip_witness :
    Project.loadM [] (some c6proj.save) = .ok { c6proj with django := false } :=
  save_load_roundtrip [] c6proj rfl (by decide) (by decide)

theorem mem_walkDirs_isAbs (check q : PyPath) (h : q ∈ walkDirs check) :
    q.isAbs = check.isAbs := by
  rcases List.mem_cons.1 h with rfl | hm
  · rfl
  · exact pathParents_isAbs _ _ hm

theorem discoverLoop_inl_sources (fs : DiscFS) :
    ∀ (dirs : List PyPath) (pr fni : Option PyPath) (r : DiscResult),
      discoverLoop fs dirs pr fni = .inl r →
      (∃ d proj, d ∈ dirs ∧ fs.saved d = .success proj ∧ r = .loaded proj) ∨
      (∃ d, d ∈ dirs ∧ r = .project d true) ∨ r = .versionError := by
  intro dirs
  induction dirs with
  | nil =>
    intro pr fni r h
    simp [discoverLoop] at h
  | cons dir rest ih =>
    intro pr fni r h
    cases hs : fs.saved dir with
    | success proj =>
      simp only [discoverLoop, hs] at h
      exact Or.inl ⟨dir, proj, List.mem_cons_self _ _, hs, (Sum.inl.inj h).symm⟩
    | badVersion =>
      simp only [discoverLoop, hs] at h
      exact Or.inr (Or.inr (Sum.inl.inj h).symm)
    | notADirectory =>
      simp only [discoverLoop, hs] at h
      rcases ih pr fni r h with ⟨d, proj, hd, h1, h2⟩ | ⟨d, hd, h1⟩ | h1
      · exact Or.inl ⟨d, proj, List.mem_cons_of_mem _ hd, h1, h2⟩
      · exact Or.inr (Or.inl ⟨d, List.mem_cons_of_mem _ hd, h1⟩)
      · exact Or.inr (Or.inr h1)
    | absent =>
      simp only [discoverLoop, hs] at h
      by_cases hskip : (fni = none ∧ fs.initExists dir = true)
      · rw [if_pos hskip] at h
        rcases ih pr fni r h with ⟨d, proj, hd, h1, h2⟩ | ⟨d, hd, h1⟩ | h1
        · exact Or.inl ⟨d, proj, List.mem_cons_of_mem _ hd, h1, h2⟩
        · exact Or.inr (Or.inl ⟨d, List.mem_cons_of_mem _ hd, h1⟩)
        · exact Or.inr (Or.inr h1)
      · rw [if_neg hskip] at h
        by_cases hdj : fs.isDjango dir = true
        · rw [if_pos hdj] at h
          exact Or.inr (Or.inl ⟨dir, List.mem_cons_self _ _,
            (Sum.inl.inj h).symm⟩)
        · rw [if_neg hdj] at h
          rcases ih _ _ r h with ⟨d, proj, hd, h1, h2⟩ | ⟨d, hd, h1⟩ | h1
          · exact Or.inl ⟨d, proj, List.mem_cons_of_mem _ hd, h1, h2⟩
          · exact Or.inr (Or.inl ⟨d, List.mem_cons_of_mem _ hd, h1⟩)
          · exact Or.inr (Or.inr h1)

theorem discoverLoop_inr_sources (fs : DiscFS) :
    ∀ (dirs : List PyPath) (pr fni pr' fni' : Option PyPath),
      discoverLoop fs dirs pr fni = .inr (pr', fni') →
      (pr' = pr ∨ ∃ d, d ∈ dirs ∧ pr' = some d) ∧
      (fni' = fni ∨ ∃ d, d ∈ dirs ∧ fni' = some d) := by
  intro dirs
  induction dirs with
  | nil =>
    intro pr fni pr' fni' h
    simp only [discoverLoop, Sum.inr.injEq, Prod.mk.injEq] at h
    exact ⟨Or.inl h.1.symm, Or.inl h.2.symm⟩
  | cons dir rest ih =>
    intro pr fni pr' fni' h
    have liftPr : (pr' = pr ∨ ∃ d, d ∈ rest ∧ pr' = some d) →
        (pr' = pr ∨ ∃ d, d ∈ dir :: rest ∧ pr' = some d) := by
      rintro (h1 | ⟨d, hd, h1⟩)
      · exact Or.inl h1
      · exact Or.inr ⟨d, List.mem_cons_of_mem _ hd, h1⟩
    have liftFni : (fni' = fni ∨ ∃ d, d ∈ rest ∧ fni' = some d) →
        (fni' = fni ∨ ∃ d, d ∈ dir :: rest ∧ fni' = some d) := by
      rintro (h1 | ⟨d, hd, h1⟩)
      · exact Or.inl h1
      · exact Or.inr ⟨d, List.mem_cons_of_mem _ hd, h1⟩
    have lift : (pr' = pr ∨ ∃ d, d ∈ rest ∧ pr' = some d) ∧
        (fni' = fni ∨ ∃ d, d ∈ rest ∧ fni' = some d) →
        (pr' = pr ∨ ∃ d, d ∈ dir :: rest ∧ pr' = some d) ∧
        (fni' = fni ∨ ∃ d, d ∈ dir :: rest ∧ fni' = some d) :=
      fun hh => ⟨liftPr hh.1, liftFni hh.2⟩
    cases hs : fs.saved dir with
    | success proj =>
      simp only [discoverLoop, hs] at h
      exact Sum.noConfusion h
    | badVersion =>
      simp only [discoverLoop, hs] at h
      exact Sum.noConfusion h
    | notADirectory =>
      simp only [discoverLoop, hs] at h
      exact lift (ih pr fni pr' fni' h)
    | absent =>
      simp only [discoverLoop, hs] at h
      by_cases hskip : (fni = none ∧ fs.initExists dir = true)
      · rw [if_pos hskip] at h
        exact lift (ih pr fni pr' fni' h)
      · rw [if_neg hskip] at h
        by_cases hdj : fs.isDjango dir = true
        · rw [if_pos hdj] at h
          exact absurd h (by simp)
        · rw [if_neg hdj] at h
          have h1 := ih _ _ pr' fni' h
          constructor
          · rcases h1.1 with h2 | ⟨d, hd, h2⟩
            · by_cases hpp : (pr = none ∧ fs.isPotential dir = true)
              · rw [h2, if_pos hpp]
                exact Or.inr ⟨dir, List.mem_cons_self _ _, rfl⟩
              · rw [h2, if_neg hpp]
                exact Or.inl rfl
            · exact Or.inr ⟨d, List.mem_cons_of_mem _ hd, h2⟩
          · rcases h1.2 with h2 | ⟨d, hd, h2⟩
            · by_cases hff : (fni = none ∧ fs.isFile dir = false)
              · rw [h2, if_pos hff]
                exact Or.inr ⟨dir, List.mem_cons_self _ _, rfl⟩
              · rw [h2, if_neg hff]
                exact Or.inl rfl
            · exact Or.inr ⟨d, List.mem_cons_of_mem _ hd, h2⟩

/-- C9 (amended): the root path is made absolute when the descriptor is
constructed from a *string* path, hence also by `load`; a descriptor
constructed with a path *object* stores it unchanged (so its root is
absolute only when the argument was); and discovery started from an
absolute path yields a descriptor with an absolute root whenever saved
configs reload to absolute roots.  No construction path resolves symlinks
or `..` segments. -/
theorem root_path_absoluteness :
    (∀ (cwd : List Seg) (s : List Char) (env : Option (List Char)) (lue : Bool)
        (spx : Option (List (List Char))) (asp : List (List Char)) (sm : Bool),
      (Project.init cwd (.ofStr s) env lue spx asp sm).path.isAbs = true) ∧
    (∀ (cwd : List Seg) (file : Option (Int × SavedFields)) (proj : Project),
      Project.loadM cwd file = .ok proj → proj.path.isAbs = true) ∧
    (∀ (cwd : List Seg) (p : PyPath) (env : Option (List Char)) (lue : Bool)
        (spx : Option (List (List Char))) (asp : List (List Char)) (sm : Bool),
      (Project.init cwd (.ofPath p) env lue spx asp sm).path = p) ∧
    (∀ (fs : DiscFS) (cwd : List Seg) (start : PyPath), start.isAbs = true →
      (∀ d proj, fs.saved d = .success proj → proj.path.isAbs = true) →
      discResultRootAbs (getDefaultProject fs cwd start)) := by
  have hstr : ∀ (cwd : List Seg) (s : List Char) (env : Option (List Char))
      (lue : Bool) (spx : Option (List (List Char))) (asp : List (List Char))
      (sm : Bool), (Project.init cwd (.ofStr s) env lue spx asp sm).path.isAbs = true := by
    intro cwd s env lue spx asp sm
    simp only [Project.init]
    exact PyPath.absolute_isAbs _ _
  refine ⟨hstr, ?_, ?_, ?_⟩
  · intro cwd file proj h
    cases file with
    | none => simp [Project.loadM] at h
    | some vd =>
      obtain ⟨v, data⟩ := vd
      by_cases hv : v = 1
      · simp only [Project.loadM, if_pos hv] at h
        have h2 := Except.ok.inj h
        rw [← h2]
        exact hstr cwd data.path data.environment_path data.load_unsafe_extensions
          data.sys_path data.added_sys_path data.smart_sys_path
      · simp [Project.loadM, hv] at h
  · intro cwd p env lue spx asp sm
    rfl
  · intro fs cwd start habs hsaved
    have hred : getDefaultProject fs cwd start =
        (match discoverLoop fs (walkDirs start) none none with
         | .inl r => r
         | .inr (probable, firstNoInit) =>
           match probable with
           | some d => .project d false
           | none =>
             match firstNoInit with
             | some d => .project d false
             | none => .project (if fs.isDir start then start else start.parent) false) := by
      simp only [getDefaultProject, PyPath.absolute_of_isAbs start cwd habs]
    rw [hred]
    cases hloop : discoverLoop fs (walkDirs start) none none with
    | inl r =>
      rcases discoverLoop_inl_sources fs _ _ _ _ hloop with
        ⟨d, proj, hd, h1, rfl⟩ | ⟨d, hd, rfl⟩ | rfl
      · exact hsaved d proj h1
      · have := mem_walkDirs_isAbs start d hd
        simp only [discResultRootAbs]
        rw [this, habs]
      · trivial
    | inr pf =>
      obtain ⟨pr', fni'⟩ := pf
      have hsrc := discoverLoop_inr_sources fs _ _ _ _ _ hloop
      cases hpr : pr' with
      | some d =>
        have : d ∈ walkDirs start := by
          rcases hsrc.1 with h2 | ⟨d2, hd2, h2⟩
          · rw [hpr] at h2
            exact absurd h2 (by simp)
          · rw [hpr] at h2
            have : d2 = d := Option.some.inj h2.symm
            exact this ▸ hd2
        simp only [discResultRootAbs]
        rw [mem_walkDirs_isAbs start d this, habs]
      | none =>
        cases hfni : fni' with
        | some d =>
          have : d ∈ walkDirs start := by
            rcases hsrc.2 with h2 | ⟨d2, hd2, h2⟩
            · rw [hfni] at h2
              exact absurd h2 (by simp)
            · rw [hfni] at h2
              have : d2 = d := Option.some.inj h2.symm
              exact this ▸ hd2
          simp only [discResultRootAbs]
          rw [mem_walkDirs_isAbs start d this, habs]
        | none =>
          simp only [discResultRootAbs]
          by_cases hdir : fs.isDir start = true
          · rw [if_pos hdir]
            exact habs
          · rw [if_neg hdir]
            exact habs

/-- C9 counterexample: constructing a descriptor with a *relative path
object* stores it as-is — `isinstance(path, str)` is false, so neither
`absolute()` nor `resolve()` is applied, and the root path stays
relative, contradicting the claimed invariant for the path-object
construction. -/
theorem root_path_relative_counterexample :
    (Project.init [['c']] (.ofPath c9rel) none false none [] true).path.isAbs
        = false ∧
    c9rel.isAbs = false := by
  exact ⟨rfl, rfl⟩

theorem root_path_absoluteness_witness :
    (Project.init [] (.ofStr ['/', 'p']) none false none [] true).path.isAbs
        = true ∧
    discResultRootAbs (getDefaultProject c9fs [] ⟨true, [['a'], ['b']]⟩) :=
  ⟨root_path_absoluteness.1 [] ['/', 'p'] none false none [] true,
   root_path_absoluteness.2.2.2 c9fs [] ⟨true, [['a'], ['b']]⟩ rfl
     (fun d proj h => by simp [c9fs] at h)⟩

theorem discoverLoop_append_noreturn (fs : DiscFS) (pre : List PyPath) :
    ∀ (l : List PyPath) (pr fni : Option PyPath),
      (∀ e ∈ pre, (fs.saved e = .absent ∨ fs.saved e = .notADirectory) ∧
        fs.isDjango e = false) →
      ∃ pr' fni', discoverLoop fs (pre ++ l) pr fni = discoverLoop fs l pr' fni' := by
  induction pre with
  | nil =>
    intro l pr fni _
    exact ⟨pr, fni, rfl⟩
  | cons e pre ih =>
    intro l pr fni h
    have he := h e (List.mem_cons_self _ _)
    have hrest := fun e' he' => h e' (List.mem_cons_of_mem _ he')
    rw [List.cons_append]
    rcases he.1 with hs | hs
    · simp only [discoverLoop, hs]
      by_cases hskip : (fni = none ∧ fs.initExists e = true)
      · rw [if_pos hskip]
        exact ih l pr fni hrest
      · rw [if_neg hskip]
        rw [if_neg (show ¬ fs.isDjango e = true by simp [he.2])]
        exact ih l _ _ hrest
    · simp only [discoverLoop, hs]
      exact ih l pr fni hrest

theorem discoverLoop_append_absent (fs : DiscFS) (pre : List PyPath) :
    ∀ (l : List PyPath) (pr fni : Option PyPath),
      (∀ e ∈ pre, fs.saved e = .absent ∧ fs.isDjango e = false) →
      discoverLoop fs (pre ++ l) pr fni =
        discoverLoop fs l (prOut fs pre pr fni) (fniOut fs pre fni) := by
  induction pre with
  | nil =>
    intro l pr fni _
    cases pr <;> cases fni <;> simp [prOut, fniOut, consultedFrom]
  | cons e pre ih =>
    intro l pr fni h
    have he := h e (List.mem_cons_self _ _)
    have hrest := fun e' he' => h e' (List.mem_cons_of_mem _ he')
    rw [List.cons_append]
    simp only [discoverLoop, he.1]
    by_cases hskip : (fni = none ∧ fs.initExists e = true)
    · rw [if_pos hskip]
      rw [ih l pr fni hrest]
      obtain ⟨hfn, hinit⟩ := hskip
      subst hfn
      congr 1
      · cases pr with
        | some x => simp [prOut]
        | none => simp [prOut, consultedFrom, hinit]
      · simp [fniOut, fniPred, hinit]
    · rw [if_neg hskip]
      rw [if_neg (show ¬ fs.isDjango e = true by simp [he.2])]
      rw [ih l _ _ hrest]
      congr 1
      · -- probable state
        cases pr with
        | some x => simp [prOut]
        | none =>
          cases fni with
          | some x =>
            cases hp : fs.isPotential e with
            | true => simp [prOut, consultedFrom, hp]
            | false => simp [prOut, consultedFrom, hp]
          | none =>
            have hinit : fs.initExists e = false := by
              by_contra hc
              exact hskip ⟨rfl, by simpa using hc⟩
            cases hp : fs.isPotential e with
            | true => simp [prOut, consultedFrom, hp, hinit]
            | false =>
              cases hf : fs.isFile e with
              | true => simp [prOut, consultedFrom, hp, hinit, hf]
              | false => simp [prOut, consultedFrom, hp, hinit, hf]
      · -- first_no_init_file state
        cases fni with
        | some x => simp [fniOut]
        | none =>
          have hinit : fs.initExists e = false := by
            by_contra hc
            exact hskip ⟨rfl, by simpa using hc⟩
          cases hf : fs.isFile e with
          | true => simp [fniOut, fniPred, hinit, hf]
          | false => simp [fniOut, fniPred, hinit, hf]

/-- Reduction of `get_default_project` for an absolute start path
(`path.absolute()` is the identity there). -/
theorem getDefaultProject_eq (fs : DiscFS) (cwd : List Seg) (start : PyPath)
    (habs : start.isAbs = true) :
    getDefaultProject fs cwd start =
      (match discoverLoop fs (walkDirs start) none none with
       | .inl r => r
       | .inr (probable, firstNoInit) =>
         match probable with
         | some d => .project d false
         | none =>
           match firstNoInit with
           | some d => .project d false
           | none => .project (if fs.isDir start then start else start.parent) false) := by
  simp only [getDefaultProject, PyPath.absolute_of_isAbs start cwd habs]

/-- C3 (amended): (a) an ancestor holding a *loadable* saved configuration
is returned immediately at the depth it is found — before it, only
directories without a saved config (or raising not-a-directory) and
without a framework return may occur, and generic markers anywhere never
preempt it; (b) when no saved-config or framework return occurs during the
whole walk, the result is the first generic-marker ancestor among the
*consulted* directories (a directory holding `__init__.py` is skipped — its
marker is not seen — while no package-marker-free candidate has been
recorded yet), else the first ancestor that is no file and has no
`__init__.py`, else the start path itself (or its parent when the start
path is not a directory). -/
theorem root_discovery_precedence :
    (∀ (fs : DiscFS) (cwd : List Seg) (start : PyPath) (pre : List PyPath)
        (d : PyPath) (post : List PyPath) (proj : Project),
      start.isAbs = true →
      walkDirs start = pre ++ d :: post →
      fs.saved d = .success proj →
      (∀ e ∈ pre, (fs.saved e = .absent ∨ fs.saved e = .notADirectory) ∧
        fs.isDjango e = false) →
      getDefaultProject fs cwd start = .loaded proj) ∧
    (∀ (fs : DiscFS) (cwd : List Seg) (start : PyPath),
      start.isAbs = true →
      (∀ e ∈ walkDirs start, fs.saved e = .absent ∧ fs.isDjango e = false) →
      getDefaultProject fs cwd start =
        .project
          (match (consultedFrom fs (walkDirs start) false).find? fs.isPotential with
           | some d => d
           | none =>
             match (walkDirs start).find? (fniPred fs) with
             | some d => d
             | none => if fs.isDir start then start else start.parent) false) := by
  constructor
  · intro fs cwd start pre d post proj habs hsplit hsd hpre
    rw [getDefaultProject_eq fs cwd start habs, hsplit]
    obtain ⟨pr', fni', heq⟩ := discoverLoop_append_noreturn fs pre (d :: post) none none hpre
    rw [heq]
    simp only [discoverLoop, hsd]
  · intro fs cwd start habs hall
    rw [getDefaultProject_eq fs cwd start habs]
    have happ := discoverLoop_append_absent fs (walkDirs start) [] none none hall
    rw [List.append_nil] at happ
    rw [happ]
    simp only [discoverLoop, prOut, fniOut, Option.isSome_none]
    cases h1 : (consultedFrom fs (walkDirs start) false).find? fs.isPotential with
    | some d => rfl
    | none =>
      cases h2 : (walkDirs start).find? (fniPred fs) with
      | some d => rfl
      | none => rfl

theorem root_discovery_precedence_witness :
    getDefaultProject c3fs [] ⟨true, [['a'], ['b']]⟩ = .loaded c3proj :=
  root_discovery_precedence.1 c3fs [] ⟨true, [['a'], ['b']]⟩
    [⟨true, [['a'], ['b']]⟩] ⟨true, [['a']]⟩ [⟨true, []⟩] c3proj rfl
    (by decide) (by decide) (by decide)

/-- C3 counterexample: starting at `/a/b` — which holds a generic marker
*and* `__init__.py` — with no saved config or framework root anywhere, the
first generic-marker ancestor in upward order is `/a/b` itself, but the
walk `continue`s over it (package-marker skip) before its marker is
checked, and discovery returns `/a` (the first `__init__`-free ancestor)
instead of the marker ancestor the claim requires. -/
theorem root_discovery_marker_counterexample :
    (∀ e ∈ walkDirs ⟨true, [['a'], ['b']]⟩,
      c3cfs.saved e = .absent ∧ c3cfs.isDjango e = false) ∧
    (walkDirs ⟨true, [['a'], ['b']]⟩).find? c3cfs.isPotential =
      some ⟨true, [['a'], ['b']]⟩ ∧
    getDefaultProject c3cfs [] ⟨true, [['a'], ['b']]⟩ =
      .project ⟨true, [['a']]⟩ false ∧
    DiscResult.project (⟨true, [['a']]⟩ : PyPath) false ≠
      .project ⟨true, [['a'], ['b']]⟩ false := by
  exact ⟨by decide, by decide, by decide, by decide⟩

/-- C7 (amended): during root discovery the framework-root (django) test is
performed at every directory the walk *consults* — a directory is consulted
unless it holds `__init__.py` while no package-marker-free candidate has
been recorded yet (or its load probe raised not-a-directory) — and whenever
a consulted directory with no saved configuration is a recognized framework
root, discovery returns a descriptor for it immediately with the framework
flag set. -/
theorem django_check_at_consulted_dirs (fs : DiscFS) (cwd : List Seg)
    (start : PyPath) (pre : List PyPath) (d : PyPath) (post : List PyPath)
    (habs : start.isAbs = true)
    (hsplit : walkDirs start = pre ++ d :: post)
    (hpre : ∀ e ∈ pre, fs.saved e = .absent ∧ fs.isDjango e = false)
    (hsd : fs.saved d = .absent)
    (hdj : fs.isDjango d = true)
    (hcons : fs.initExists d = false ∨
      ∃ e ∈ pre, fs.initExists e = false ∧ fs.isFile e = false) :
    getDefaultProject fs cwd start = .project d true := by
  rw [getDefaultProject_eq fs cwd start habs, hsplit]
  rw [discoverLoop_append_absent fs pre (d :: post) none none hpre]
  simp only [discoverLoop, hsd]
  have hns : ¬ (fniOut fs pre none = none ∧ fs.initExists d = true) := by
    rcases hcons with h1 | ⟨e, he, h2⟩
    · rintro ⟨_, hinit⟩
      rw [h1] at hinit
      exact Bool.false_ne_true hinit
    · rintro ⟨hfn, _⟩
      have hsome : (pre.find? (fniPred fs)).isSome := by
        rw [List.find?_isSome]
        exact ⟨e, he, by simp [fniPred, h2.1, h2.2]⟩
      rw [show fniOut fs pre none = pre.find? (fniPred fs) from rfl] at hfn
      rw [hfn] at hsome
      simp at hsome
  rw [if_neg hns, if_pos hdj]

theorem django_check_at_consulted_dirs_witness :
    getDefaultProject c7fs [] ⟨true, [['a'], ['b']]⟩ =
      .project ⟨true, [['a'], ['b']]⟩ true :=
  django_check_at_consulted_dirs c7fs [] ⟨true, [['a'], ['b']]⟩ []
    ⟨true, [['a'], ['b']]⟩ [⟨true, [['a']]⟩, ⟨true, []⟩] rfl (by decide)
    (by decide) (by decide) (by decide) (Or.inl (by decide))

/-- C7 counterexample: `/a/b` is a recognized framework root with no saved
config at or below it, yet because it holds `__init__.py` (and no
package-marker-free candidate exists yet) the walk `continue`s before the
framework test, and discovery returns `/a` without the framework flag —
the claim requires `.project /a/b true`. -/
theorem django_check_skipped_counterexample :
    c7cfs.isDjango ⟨true, [['a'], ['b']]⟩ = true ∧
    (∀ e ∈ walkDirs ⟨true, [['a'], ['b']]⟩, c7cfs.saved e = .absent) ∧
    getDefaultProject c7cfs [] ⟨true, [['a'], ['b']]⟩ =
      .project ⟨true, [['a']]⟩ false ∧
    DiscResult.project (⟨true, [['a']]⟩ : PyPath) false ≠
      .project ⟨true, [['a'], ['b']]⟩ true := by
  exact ⟨by decide, by decide, by decide, by decide⟩
